import Mathlib

/-!
# MovieAutoCutter — verification of the analysis-and-rendering core

Shallow embedding of the core of the MovieAutoCutter repository
(`audio_tools.py`, `video_tools.py`, `processor.py`) and proofs about it.

Times are modelled as rationals (milliseconds), loudness as rationals (dB).
Audio chunks carry the two fields the code reads: the RMS energy and the
dBFS loudness.
-/

namespace MovieAutoCutter

/-- An audio chunk as read by `audio_tools.py`: the code only inspects
`chunk.rms` (non-negative energy) and `chunk.dBFS` (loudness). -/
structure Chunk where
  rms : ℕ
  dBFS : ℚ
deriving DecidableEq, Repr

/-- Per-chunk loudness assignment of `analyze_audio_dB`: a chunk with zero RMS
(true digital silence) gets the floor value -90 dB, otherwise its dBFS. -/
def loudnessOf (c : Chunk) : ℚ :=
  if 0 < c.rms then c.dBFS else -90

/-- Embedding of `audio_tools.analyze_audio_dB` (src/audio_tools.py lines 8-33):
builds the per-chunk loudness list, filters the values strictly above the
-90 dB floor, and returns `(min, max, mean, loudness list)`; when no value is
above the floor it returns `(-90, -90, -90, [])`. -/
def analyze_audio_dB (chunks : List Chunk) : ℚ × ℚ × ℚ × List ℚ :=
  let loudness := chunks.map loudnessOf
  let valid := loudness.filter (fun db => -90 < db)
  match valid with
  | [] => (-90, -90, -90, [])
  | v :: vs =>
      (vs.foldl min v, vs.foldl max v,
       ((v :: vs).foldl (· + ·) 0) / ((v :: vs).length : ℚ), loudness)

/-- Silence test of `detect_silence_based_on_dB`: a chunk is silent when its
dBFS is below the threshold, or unconditionally when its RMS is zero. -/
def isSilentChunk (thresh : ℚ) (c : Chunk) : Bool :=
  if 0 < c.rms then decide (c.dBFS < thresh) else true

/-- The chunk loop of `detect_silence_based_on_dB` (src/audio_tools.py lines
51-62), written with explicit state `(i, inSilence, silStart)`; returns the
ranges closed during the loop together with the final state. -/
def silenceLoop (thresh chunkLen : ℚ) :
    List Chunk → ℕ → Bool → ℚ → List (ℚ × ℚ) × Bool × ℚ
  | [], _, inSil, silStart => ([], inSil, silStart)
  | c :: rest, i, inSil, silStart =>
      let t : ℚ := (i : ℚ) * chunkLen
      if isSilentChunk thresh c then
        if inSil then silenceLoop thresh chunkLen rest (i + 1) true silStart
        else silenceLoop thresh chunkLen rest (i + 1) true t
      else if inSil then
        let r := silenceLoop thresh chunkLen rest (i + 1) false silStart
        ((silStart, t) :: r.1, r.2)
      else silenceLoop thresh chunkLen rest (i + 1) false silStart

/-- Embedding of `audio_tools.detect_silence_based_on_dB` (src/audio_tools.py
lines 35-68). `totalLen` is `len(audio)`, the audio's total duration in ms:
if the file ends while still inside a silent run, the open range is closed at
`totalLen`. -/
def detect_silence_based_on_dB (chunks : List Chunk)
    (thresh chunkLen totalLen : ℚ) : List (ℚ × ℚ) :=
  let r := silenceLoop thresh chunkLen chunks 0 false 0
  if r.2.1 then r.1 ++ [(r.2.2, totalLen)] else r.1

/-! ## processor.py — range merging -/

/-- A time range `(start_ms, end_ms)` as the tuples used throughout
`processor.py`. -/
abbrev TimeRange := ℚ × ℚ

/-- Stable insertion of a range into a list ordered by start time; placed
before the first element whose start is not smaller, matching the stability
of Python's `sorted(..., key=lambda x: x[0])`. -/
def insertRange (r : TimeRange) : List TimeRange → List TimeRange
  | [] => [r]
  | x :: xs => if r.1 ≤ x.1 then r :: x :: xs else x :: insertRange r xs

/-- Stable sort by start time, embedding `sorted(ranges, key=lambda x: x[0])`
in `merge_and_optimize_ranges`. -/
def sortRanges : List TimeRange → List TimeRange
  | [] => []
  | r :: rs => insertRange r (sortRanges rs)

/-- The accumulation loop of `merge_and_optimize_ranges` (src/processor.py
lines 30-42), with running range `(cs, ce)`: a next range starting before
`ce + gap` is merged by extending `ce`; otherwise the running range is emitted
when its duration reaches `minDur` and the next range starts a new
accumulation; the final running range is emitted under the same check. -/
def mergeLoop (minDur gap : ℚ) : ℚ → ℚ → List TimeRange → List TimeRange
  | cs, ce, [] => if minDur ≤ ce - cs then [(cs, ce)] else []
  | cs, ce, (ns, ne) :: rest =>
      if ns < ce + gap then mergeLoop minDur gap cs (max ce ne) rest
      else if minDur ≤ ce - cs then (cs, ce) :: mergeLoop minDur gap ns ne rest
      else mergeLoop minDur gap ns ne rest

/-- Embedding of `processor.merge_and_optimize_ranges` (src/processor.py
lines 21-43): sort by start, then run the merge loop seeded with the first
range. Empty input yields empty output. -/
def merge_and_optimize_ranges (ranges : List TimeRange)
    (minDur gap : ℚ) : List TimeRange :=
  match sortRanges ranges with
  | [] => []
  | (s, e) :: rest => mergeLoop minDur gap s e rest

/-! ## processor.py — filter-graph builder -/

/-- A segment descriptor of the filter graph: `_FFmpegFilterBuilder.add_clip`
emits a passthrough segment, `add_speedup_clip` a transform segment with a
speed factor and a volume scale. -/
inductive Segment where
  | passthrough (startMs endMs : ℚ)
  | transform (startMs endMs factor volume : ℚ)
deriving DecidableEq, Repr

/-- Source start of a segment. -/
def Segment.startMs : Segment → ℚ
  | .passthrough s _ => s
  | .transform s _ _ _ => s

/-- Source end of a segment. -/
def Segment.endMs : Segment → ℚ
  | .passthrough _ e => e
  | .transform _ e _ _ => e

/-- `_FFmpegFilterBuilder.add_clip` (src/processor.py lines 73-84) as the list
of segments it appends: one passthrough segment, or nothing when
`start_ms >= end_ms`. -/
def addClip (s e : ℚ) : List Segment :=
  if s < e then [.passthrough s e] else []

/-- `_FFmpegFilterBuilder.add_speedup_clip` (src/processor.py lines 86-101) as
the list of segments it appends: one transform segment, or nothing when
`start_ms >= end_ms`. -/
def addSpeedupClip (s e factor volume : ℚ) : List Segment :=
  if s < e then [.transform s e factor volume] else []

/-- The range loop of `_process_chunk` (src/processor.py lines 143-159) with
running `last_end_ms`: for each plan range, a passthrough clip from
`last_end_ms` to the margin-expanded start, then (in speed-up mode `"倍速"`)
a transform clip over the margin-expanded range; `last_end_ms` is then set to
the range's original end. After the loop a final passthrough clip runs to the
video's total duration. -/
def processRanges (mode : String) (preCutMs postCutMs durationMs factor volume : ℚ)
    (lastEnd : ℚ) : List TimeRange → List Segment
  | [] => addClip lastEnd durationMs
  | (s, e) :: rest =>
      addClip lastEnd (s - preCutMs) ++
      (if mode = "倍速" then addSpeedupClip (s - preCutMs) (e + postCutMs) factor volume
       else []) ++
      processRanges mode preCutMs postCutMs durationMs factor volume e rest

/-- Segment list built by `_process_chunk` (src/processor.py lines 129-161)
for a plan: margins are given in seconds and converted to milliseconds
(`pre_cut_ms = pre_cut_seconds * 1000`). The builder's `stream_counter`
equals the length of this list. -/
def processChunkSegments (ranges : List TimeRange) (mode : String)
    (preCutSeconds postCutSeconds durationMs factor volume : ℚ) : List Segment :=
  processRanges mode (preCutSeconds * 1000) (postCutSeconds * 1000)
    durationMs factor volume 0 ranges

/-- `_FFmpegFilterBuilder._build_atempo_chain` (src/processor.py lines
103-110) at the level of stage multipliers: factors at most 1 produce no
stage; factors above the 100x per-stage cap emit a 100x stage and recurse on
`factor / 100`; a final stage carries the remainder when it exceeds 1. -/
def buildAtempoChain (factor : ℚ) : List ℚ :=
  if h : 100 < factor then 100 :: buildAtempoChain (factor / 100)
  else if 1 < factor then [factor] else []
termination_by (⌈factor⌉).toNat
decreasing_by
  have h100 : (100 : ℤ) < ⌈factor⌉ := by
    rw [Int.lt_ceil]; exact_mod_cast h
  have hle : ⌈factor / 100⌉ ≤ ⌈factor⌉ - 99 := by
    calc ⌈factor / 100⌉ ≤ ⌈factor - (99 : ℤ)⌉ := by
          apply Int.ceil_le_ceil; push_cast; linarith
      _ = ⌈factor⌉ - 99 := Int.ceil_sub_int factor 99
  have hpos : (0 : ℤ) < ⌈factor⌉ := by omega
  exact (Int.toNat_lt_toNat hpos).mpr (by omega)

/-! ## processor.py — backend selection and fast-path execution -/

/-- `MAX_CONCAT_STREAMS` (src/processor.py line 19). -/
def MAX_CONCAT_STREAMS : ℕ := 50

/-- The stream-count estimate of `cut_or_speedup_video` (src/processor.py
lines 242-246): `len(ranges) * 2 + 1`, recomputed identically when audio is
present. -/
def streamEstimate (numRanges : ℕ) (hasAudio : Bool) : ℕ :=
  let sc := numRanges * 2 + 1
  if hasAudio then numRanges * 2 + 1 else sc

/-- `cut_or_speedup_video`'s decision whether to use the FFmpeg direct (fast)
path (src/processor.py lines 235-251): it must be enabled by configuration and
the stream estimate must not exceed `MAX_CONCAT_STREAMS`; otherwise the
MoviePy (safe) path is used. -/
def selectUseDirect (useFfmpegDirect : Bool) (hasAudio : Bool)
    (numRanges : ℕ) : Bool :=
  if useFfmpegDirect then
    decide (¬ MAX_CONCAT_STREAMS < streamEstimate numRanges hasAudio)
  else false

/-- Exit status of the three external subprocess steps run by
`_process_chunk`: the video pass, the audio pass, and the final mux. `true`
means a zero exit code. -/
structure StepResults where
  videoOk : Bool
  audioOk : Bool
  muxOk : Bool
deriving DecidableEq, Repr

/-- Execution part of `_process_chunk` (src/processor.py lines 161-176) as a
pair `(success, errorShown)`. `_run_ffmpeg_command` returns `False` and shows
an error dialog when a step exits non-zero; `_process_chunk` then returns
`False` without raising. With zero streams it returns `True` immediately; the
audio pass runs only when the source has audio (the audio filter graph is
non-empty exactly when `has_audio` and the stream count is positive). -/
def processChunkRun (segCount : ℕ) (hasAudio : Bool)
    (steps : StepResults) : Bool × Bool :=
  if segCount = 0 then (true, false)
  else if !steps.videoOk then (false, true)
  else if hasAudio && !steps.audioOk then (false, true)
  else if !steps.muxOk then (false, true)
  else (true, false)

/-- Abstract environment for one invocation of `cut_or_speedup_video`:
configuration flag, audio presence, whether the fast-path `try` block raises
an exception (e.g. the source cannot be opened), and the subprocess exits. -/
structure RenderEnv where
  useFfmpegDirect : Bool
  hasAudio : Bool
  fastRaises : Bool
  steps : StepResults
deriving DecidableEq, Repr

/-- Observable outcome of `cut_or_speedup_video`: which paths ran, and the
fast path's user-visible error/success dialogs. The safe path's own dialogs
are outside this model. -/
structure RenderResult where
  ranFastPath : Bool
  ranSafePath : Bool
  errorShown : Bool
  successShown : Bool
deriving DecidableEq, Repr

/-- Control flow of `processor.cut_or_speedup_video` (src/processor.py lines
233-272): the fast path is chosen by `selectUseDirect`; an exception inside
its `try` block falls back to the MoviePy safe path; otherwise
`_process_chunk` runs the three subprocess steps over the segments built for
the plan, a success dialog is shown only when it returns `True`, and a
`False` return ends the job with no fallback. -/
def cutOrSpeedupVideo (env : RenderEnv) (ranges : List TimeRange)
    (mode : String) (preSec postSec durationMs factor volume : ℚ) : RenderResult :=
  if selectUseDirect env.useFfmpegDirect env.hasAudio ranges.length then
    if env.fastRaises then
      { ranFastPath := true, ranSafePath := true,
        errorShown := false, successShown := false }
    else
      let segCount :=
        (processChunkSegments ranges mode preSec postSec durationMs factor volume).length
      let r := processChunkRun segCount env.hasAudio env.steps
      { ranFastPath := true, ranSafePath := false,
        errorShown := r.2, successShown := r.1 }
  else
    { ranFastPath := false, ranSafePath := true,
      errorShown := false, successShown := false }

/-! ## video_tools.py / processor.py — frame-rate fallbacks -/

/-- Frame-rate fallback of `detect_central_static_frames`
(src/video_tools.py lines 96-97): `fps if fps > 0 else 30`. -/
def staticDetectorFps (reported : ℚ) : ℚ :=
  if 0 < reported then reported else 30

/-- Frame-rate fallback of `_process_chunk` (src/processor.py line 132):
`video.fps if video.fps and video.fps > 0 else 30`, where `video.fps` may be
`None` and a zero value is falsy. -/
def processChunkFps : Option ℚ → ℚ
  | none => 30
  | some f => if f ≠ 0 ∧ 0 < f then f else 30

/-! ## Tiling of segment lists -/

/-- `tiles a b segs`: the segments cover `[a, b)` exactly, in order, each
non-degenerate, with consecutive boundaries coinciding (no gap, no overlap). -/
def tiles (a b : ℚ) : List Segment → Prop
  | [] => a = b
  | seg :: rest => seg.startMs = a ∧ a < seg.endMs ∧ tiles seg.endMs b rest

instance instDecidableTiles : ∀ (l : List Segment) (a b : ℚ), Decidable (tiles a b l)
  | [], a, b => inferInstanceAs (Decidable (a = b))
  | seg :: rest, a, b =>
      letI := instDecidableTiles rest seg.endMs b
      inferInstanceAs (Decidable (_ ∧ _ ∧ _))

/-- Sum of segment source durations. -/
def sumDur (l : List Segment) : ℚ :=
  (l.map (fun seg => seg.endMs - seg.startMs)).sum

/-- Validity of a processing plan relative to the builder's running
`last_end_ms` and a pre-margin (in ms): each range's margin-expanded start
lies at or after the previous resume point, each margin-expanded range is
non-degenerate, and the plan ends at or before the total duration. -/
def planTiles (pre total : ℚ) : ℚ → List TimeRange → Prop
  | lastEnd, [] => lastEnd ≤ total
  | lastEnd, (s, e) :: rest => lastEnd ≤ s - pre ∧ s - pre < e ∧ planTiles pre total e rest

/-! ## Helper lemmas -/

lemma processChunkRun_fail_error (n : ℕ) (a : Bool) (s : StepResults)
    (h : (processChunkRun n a s).1 = false) : (processChunkRun n a s).2 = true := by
  unfold processChunkRun at h ⊢
  split_ifs at h ⊢ <;> simp_all

lemma silenceLoop_all_silent (thresh chunkLen : ℚ) :
    ∀ (chunks : List Chunk) (i : ℕ) (silStart : ℚ),
      (∀ c ∈ chunks, isSilentChunk thresh c = true) →
      silenceLoop thresh chunkLen chunks i true silStart = ([], true, silStart) := by
  intro chunks
  induction chunks with
  | nil => intro i s _; rfl
  | cons c rest ih =>
      intro i s h
      have hc : isSilentChunk thresh c = true := h c (List.mem_cons_self c rest)
      simp only [silenceLoop, hc, if_true]
      exact ih (i + 1) s (fun c' hc' => h c' (List.mem_cons_of_mem _ hc'))

lemma merge_nil_of_sort_nil {ranges : List TimeRange} {minDur gap : ℚ}
    (h : sortRanges ranges = []) :
    merge_and_optimize_ranges ranges minDur gap = [] := by
  unfold merge_and_optimize_ranges
  rw [h]

lemma merge_cons_of_sort_cons {ranges : List TimeRange} {minDur gap s e : ℚ}
    {tl : List TimeRange} (h : sortRanges ranges = (s, e) :: tl) :
    merge_and_optimize_ranges ranges minDur gap = mergeLoop minDur gap s e tl := by
  unfold merge_and_optimize_ranges
  rw [h]

lemma mem_insertRange (r : TimeRange) :
    ∀ (l : List TimeRange) (z : TimeRange),
      z ∈ insertRange r l → z = r ∨ z ∈ l := by
  intro l
  induction l with
  | nil => intro z hz; simp [insertRange] at hz; exact Or.inl hz
  | cons x xs ih =>
      intro z hz
      by_cases h : r.1 ≤ x.1
      · simp only [insertRange, if_pos h] at hz
        rcases List.mem_cons.mp hz with rfl | hz'
        · exact Or.inl rfl
        · exact Or.inr hz'
      · simp only [insertRange, if_neg h] at hz
        rcases List.mem_cons.mp hz with rfl | hz'
        · exact Or.inr (List.mem_cons_self _ _)
        · rcases ih z hz' with h1 | h2
          · exact Or.inl h1
          · exact Or.inr (List.mem_cons_of_mem _ h2)

lemma insertRange_pairwise (r : TimeRange) :
    ∀ (l : List TimeRange), l.Pairwise (fun a b => a.1 ≤ b.1) →
      (insertRange r l).Pairwise (fun a b => a.1 ≤ b.1) := by
  intro l
  induction l with
  | nil => intro _; simp [insertRange]
  | cons x xs ih =>
      intro hl
      rw [List.pairwise_cons] at hl
      obtain ⟨hx, hxs⟩ := hl
      by_cases h : r.1 ≤ x.1
      · simp only [insertRange, if_pos h]
        rw [List.pairwise_cons]
        refine ⟨?_, List.pairwise_cons.mpr ⟨hx, hxs⟩⟩
        intro z hz
        rcases List.mem_cons.mp hz with rfl | hz'
        · exact h
        · exact le_trans h (hx z hz')
      · simp only [insertRange, if_neg h]
        rw [List.pairwise_cons]
        refine ⟨?_, ih hxs⟩
        intro z hz
        rcases mem_insertRange r xs z hz with rfl | hz'
        · exact (not_le.mp h).le
        · exact hx z hz'

lemma sortRanges_pairwise :
    ∀ (l : List TimeRange), (sortRanges l).Pairwise (fun a b => a.1 ≤ b.1) := by
  intro l
  induction l with
  | nil => simp [sortRanges]
  | cons r rs ih => exact insertRange_pairwise r _ ih

lemma sortRanges_eq_of_sorted :
    ∀ (l : List TimeRange), l.Pairwise (fun a b => a.1 ≤ b.1) → sortRanges l = l := by
  intro l
  induction l with
  | nil => intro _; rfl
  | cons a t ih =>
      intro h
      rw [List.pairwise_cons] at h
      obtain ⟨ha, ht⟩ := h
      show insertRange a (sortRanges t) = a :: t
      rw [ih ht]
      cases t with
      | nil => rfl
      | cons x xs => simp [insertRange, ha x (List.mem_cons_self _ _)]

lemma mergeLoop_invariant (minDur gap : ℚ) :
    ∀ (rest : List TimeRange) (cs ce : ℚ),
      (∀ r ∈ rest, cs ≤ r.1) →
      rest.Pairwise (fun a b => a.1 ≤ b.1) →
      (∀ r ∈ mergeLoop minDur gap cs ce rest, cs ≤ r.1) ∧
      (∀ r ∈ mergeLoop minDur gap cs ce rest, minDur ≤ r.2 - r.1) ∧
      (mergeLoop minDur gap cs ce rest).Pairwise (fun a b => a.1 ≤ b.1) ∧
      (mergeLoop minDur gap cs ce rest).Chain' (fun a b => a.2 + gap ≤ b.1) := by
  intro rest
  induction rest with
  | nil =>
      intro cs ce _ _
      by_cases h : minDur ≤ ce - cs <;> simp [mergeLoop, h]
  | cons hd tl ih =>
      obtain ⟨ns, ne⟩ := hd
      intro cs ce hcs hpw
      rw [List.pairwise_cons] at hpw
      obtain ⟨hns, htl⟩ := hpw
      have hcsns : cs ≤ ns := hcs (ns, ne) (List.mem_cons_self _ _)
      by_cases hm : ns < ce + gap
      · have hrec := ih cs (max ce ne)
          (fun r hr => hcs r (List.mem_cons_of_mem _ hr)) htl
        simpa [mergeLoop, hm] using hrec
      · have hrec := ih ns ne hns htl
        obtain ⟨hrec1, hrec2, hrec3, hrec4⟩ := hrec
        by_cases hdur : minDur ≤ ce - cs
        · have hout : mergeLoop minDur gap cs ce ((ns, ne) :: tl) =
              (cs, ce) :: mergeLoop minDur gap ns ne tl := by
            simp [mergeLoop, hm, hdur]
          rw [hout]
          refine ⟨?_, ?_, ?_, ?_⟩
          · intro r hr
            rcases List.mem_cons.mp hr with rfl | hr'
            · exact le_refl cs
            · exact le_trans hcsns (hrec1 r hr')
          · intro r hr
            rcases List.mem_cons.mp hr with rfl | hr'
            · exact hdur
            · exact hrec2 r hr'
          · exact List.pairwise_cons.mpr
              ⟨fun r hr => le_trans hcsns (hrec1 r hr), hrec3⟩
          · rw [List.chain'_cons']
            refine ⟨?_, hrec4⟩
            intro b hb
            exact le_trans (not_lt.mp hm) (hrec1 b (List.mem_of_mem_head? hb))
        · have hout : mergeLoop minDur gap cs ce ((ns, ne) :: tl) =
              mergeLoop minDur gap ns ne tl := by
            simp [mergeLoop, hm, hdur]
          rw [hout]
          exact ⟨fun r hr => le_trans hcsns (hrec1 r hr), hrec2, hrec3, hrec4⟩

lemma chain_sep_pairwise :
    ∀ (l : List TimeRange), l.Chain' (fun a b => a.2 ≤ b.1) →
      (∀ r ∈ l, r.1 ≤ r.2) →
      l.Pairwise (fun a b => a.2 ≤ b.1) := by
  intro l
  induction l with
  | nil => intro _ _; simp
  | cons a t ih =>
      intro hch hdur
      rw [List.chain'_cons'] at hch
      obtain ⟨hhead, hch'⟩ := hch
      have hpt : t.Pairwise (fun a b => a.2 ≤ b.1) :=
        ih hch' (fun r hr => hdur r (List.mem_cons_of_mem _ hr))
      rw [List.pairwise_cons]
      refine ⟨?_, hpt⟩
      intro z hz
      cases t with
      | nil => simp at hz
      | cons b t' =>
          have hab : a.2 ≤ b.1 := hhead b rfl
          rcases List.mem_cons.mp hz with rfl | hz'
          · exact hab
          · have hb2 : b.2 ≤ z.1 := (List.pairwise_cons.mp hpt).1 z hz'
            have hb12 : b.1 ≤ b.2 := hdur b (List.mem_cons_of_mem _ (List.mem_cons_self _ _))
            exact le_trans (le_trans hab hb12) hb2

lemma mergeLoop_fixed (minDur gap : ℚ) :
    ∀ (rest : List TimeRange) (cs ce : ℚ),
      ((cs, ce) :: rest).Chain' (fun a b => a.2 + gap ≤ b.1) →
      (∀ r ∈ (cs, ce) :: rest, minDur ≤ r.2 - r.1) →
      mergeLoop minDur gap cs ce rest = (cs, ce) :: rest := by
  intro rest
  induction rest with
  | nil =>
      intro cs ce _ hdur
      simp [mergeLoop, hdur (cs, ce) (List.mem_cons_self _ _)]
  | cons hd tl ih =>
      obtain ⟨ns, ne⟩ := hd
      intro cs ce hch hdur
      have hgap : ce + gap ≤ ns := (List.chain'_cons.mp hch).1
      have hch' : ((ns, ne) :: tl).Chain' (fun a b => a.2 + gap ≤ b.1) :=
        (List.chain'_cons.mp hch).2
      have hdur' : ∀ r ∈ (ns, ne) :: tl, minDur ≤ r.2 - r.1 :=
        fun r hr => hdur r (List.mem_cons_of_mem _ hr)
      simp [mergeLoop, not_lt.mpr hgap, hdur (cs, ce) (List.mem_cons_self _ _),
        ih ns ne hch' hdur']

/-! ## Claims about the audio analyzer -/

/-- Claim C1, counterexample: for a single chunk of true digital silence, no
chunk loudness is strictly above the -90 dB floor, and `analyze_audio_dB`
returns min = max = mean = -90 as claimed, but the returned sample list is
empty rather than the full one-entry per-chunk list. -/
theorem C1_counterexample :
    analyze_audio_dB [⟨0, 0⟩] = (-90, -90, -90, []) ∧
    (analyze_audio_dB [⟨0, 0⟩]).2.2.2.length ≠ ([(⟨0, 0⟩ : Chunk)]).length := by
  constructor
  · norm_num [analyze_audio_dB, loudnessOf]
  · norm_num [analyze_audio_dB, loudnessOf]

/-- Claim C1, amended: for every audio input in which no chunk's loudness is
strictly above the -90 dB floor, `analyze_audio_dB` returns
min = max = mean = -90 and an EMPTY sample list (not the full per-chunk
list). -/
theorem C1_amended_floor_returns_empty_samples (chunks : List Chunk)
    (h : ∀ c ∈ chunks, loudnessOf c ≤ -90) :
    analyze_audio_dB chunks = (-90, -90, -90, []) := by
  have hfil : (chunks.map loudnessOf).filter (fun db => decide (-90 < db)) = [] := by
    rw [List.filter_eq_nil_iff]
    intro a ha
    obtain ⟨c, hc, rfl⟩ := List.mem_map.mp ha
    simpa using h c hc
  simp [analyze_audio_dB, hfil]

/-- Witness for the amended C1 at a concrete two-chunk input. -/
theorem C1_amended_witness :
    analyze_audio_dB [⟨0, 5⟩, ⟨4, -100⟩] = (-90, -90, -90, []) :=
  C1_amended_floor_returns_empty_samples [⟨0, 5⟩, ⟨4, -100⟩]
    (by norm_num [loudnessOf])

/-- Claim C9: for every non-empty chunk sequence in which every chunk is
silent (loudness below the threshold, or exactly zero energy), the silence
detector returns exactly one range, from time 0 to the audio's total
duration. -/
theorem C9_all_silent_single_range (chunks : List Chunk)
    (thresh chunkLen totalLen : ℚ) (hne : chunks ≠ [])
    (hsil : ∀ c ∈ chunks, isSilentChunk thresh c = true) :
    detect_silence_based_on_dB chunks thresh chunkLen totalLen = [(0, totalLen)] := by
  match chunks, hne with
  | c :: rest, _ =>
    have hc : isSilentChunk thresh c = true := hsil c (List.mem_cons_self c rest)
    have hrest : ∀ c' ∈ rest, isSilentChunk thresh c' = true :=
      fun c' hc' => hsil c' (List.mem_cons_of_mem _ hc')
    unfold detect_silence_based_on_dB
    simp [silenceLoop, hc, silenceLoop_all_silent thresh chunkLen rest 1 _ hrest]

/-- Witness for C9: two silent chunks (one zero-energy, one below threshold)
over a 1500 ms file yield the single range `(0, 1500)`. -/
theorem C9_witness :
    detect_silence_based_on_dB [⟨0, 0⟩, ⟨3, -80⟩] (-70) 1000 1500 = [(0, 1500)] :=
  C9_all_silent_single_range [⟨0, 0⟩, ⟨3, -80⟩] (-70) 1000 1500
    (by simp) (by norm_num [isSilentChunk])

lemma tiles_append {b c : ℚ} {l2 : List Segment} :
    ∀ (l1 : List Segment) (a : ℚ), tiles a b l1 → tiles b c l2 → tiles a c (l1 ++ l2) := by
  intro l1
  induction l1 with
  | nil =>
      intro a h1 h2
      have hab : a = b := h1
      subst hab
      simpa using h2
  | cons seg t ih =>
      intro a h1 h2
      obtain ⟨hstart, hlt, htl⟩ := h1
      exact ⟨hstart, hlt, ih _ htl h2⟩

lemma tiles_addClip {a b : ℚ} (h : a ≤ b) : tiles a b (addClip a b) := by
  unfold addClip
  by_cases hlt : a < b
  · rw [if_pos hlt]
    exact ⟨rfl, hlt, rfl⟩
  · rw [if_neg hlt]
    exact le_antisymm h (not_lt.mp hlt)

lemma tiles_sumDur : ∀ (l : List Segment) (a b : ℚ), tiles a b l → sumDur l = b - a := by
  intro l
  induction l with
  | nil =>
      intro a b h
      have hab : a = b := h
      subst hab
      simp [sumDur]
  | cons seg t ih =>
      intro a b h
      obtain ⟨hstart, hlt, htl⟩ := h
      show (List.map _ (seg :: t)).sum = b - a
      rw [List.map_cons, List.sum_cons]
      have ht := ih seg.endMs b htl
      unfold sumDur at ht
      rw [ht, hstart]
      ring

lemma processRanges_tiles (pre total factor volume : ℚ) :
    ∀ (ranges : List TimeRange) (lastEnd : ℚ),
      planTiles pre total lastEnd ranges →
      tiles lastEnd total (processRanges "倍速" pre 0 total factor volume lastEnd ranges) := by
  intro ranges
  induction ranges with
  | nil =>
      intro lastEnd h
      exact tiles_addClip h
  | cons hd tl ih =>
      obtain ⟨s, e⟩ := hd
      intro lastEnd h
      obtain ⟨h1, h2, h3⟩ := h
      have hspeed : addSpeedupClip (s - pre) e factor volume =
          [Segment.transform (s - pre) e factor volume] := by
        unfold addSpeedupClip
        rw [if_pos h2]
      have hkey : processRanges "倍速" pre 0 total factor volume lastEnd ((s, e) :: tl) =
          addClip lastEnd (s - pre) ++
            ([Segment.transform (s - pre) e factor volume] ++
              processRanges "倍速" pre 0 total factor volume e tl) := by
        simp [processRanges, hspeed]
      rw [hkey]
      have hB : tiles (s - pre) e [Segment.transform (s - pre) e factor volume] :=
        ⟨rfl, h2, rfl⟩
      exact tiles_append _ _ (tiles_addClip h1)
        (tiles_append _ _ hB (ih e h3))

/-! ## Claims about the range merger -/

/-- Claim C5: for every finite input list of time ranges (not necessarily
sorted or disjoint) and every `minDur ≥ 0` and gap tolerance `gap ≥ 0`, every
range in the output of `merge_and_optimize_ranges` has duration at least
`minDur`, and the output is sorted ascending by start and pairwise disjoint
(each range ends at or before every later range starts). -/
theorem C5_merge_sorted_disjoint_min_duration (ranges : List TimeRange)
    (minDur gap : ℚ) (hd : 0 ≤ minDur) (hg : 0 ≤ gap) :
    (∀ r ∈ merge_and_optimize_ranges ranges minDur gap, minDur ≤ r.2 - r.1) ∧
    (merge_and_optimize_ranges ranges minDur gap).Pairwise (fun a b => a.1 ≤ b.1) ∧
    (merge_and_optimize_ranges ranges minDur gap).Pairwise (fun a b => a.2 ≤ b.1) := by
  rcases hsort : sortRanges ranges with _ | ⟨⟨s, e⟩, tl⟩
  · rw [merge_nil_of_sort_nil hsort]
    simp
  · rw [merge_cons_of_sort_cons hsort]
    have hpw := sortRanges_pairwise ranges
    rw [hsort, List.pairwise_cons] at hpw
    obtain ⟨hs, htl⟩ := hpw
    obtain ⟨_, h2, h3, h4⟩ := mergeLoop_invariant minDur gap tl s e hs htl
    refine ⟨h2, h3, ?_⟩
    apply chain_sep_pairwise
    · exact h4.imp (fun a b hab => le_trans (le_add_of_nonneg_right hg) hab)
    · intro r hr
      have := h2 r hr
      linarith

/-- Witness for C5 on a concrete unsorted, overlapping input. -/
theorem C5_witness :
    (∀ r ∈ merge_and_optimize_ranges [(300, 400), (0, 100), (50, 150)] 50 100,
      (50 : ℚ) ≤ r.2 - r.1) ∧
    (merge_and_optimize_ranges [(300, 400), (0, 100), (50, 150)] 50 100).Pairwise
      (fun a b => a.1 ≤ b.1) ∧
    (merge_and_optimize_ranges [(300, 400), (0, 100), (50, 150)] 50 100).Pairwise
      (fun a b => a.2 ≤ b.1) :=
  C5_merge_sorted_disjoint_min_duration [(300, 400), (0, 100), (50, 150)] 50 100
    (by norm_num) (by norm_num)

/-- Claim C6: `merge_and_optimize_ranges` is idempotent — applying it with the
same `minDur` and `gap` to its own output returns that output unchanged, for
every input list and every parameter values. -/
theorem C6_merge_idempotent (ranges : List TimeRange) (minDur gap : ℚ) :
    merge_and_optimize_ranges (merge_and_optimize_ranges ranges minDur gap) minDur gap =
      merge_and_optimize_ranges ranges minDur gap := by
  rcases hsort : sortRanges ranges with _ | ⟨⟨s, e⟩, tl⟩
  · rw [merge_nil_of_sort_nil hsort]
    rfl
  · rw [merge_cons_of_sort_cons hsort]
    have hpw := sortRanges_pairwise ranges
    rw [hsort, List.pairwise_cons] at hpw
    obtain ⟨hs, htl⟩ := hpw
    obtain ⟨_, h2, h3, h4⟩ := mergeLoop_invariant minDur gap tl s e hs htl
    have hsorted : sortRanges (mergeLoop minDur gap s e tl) = mergeLoop minDur gap s e tl :=
      sortRanges_eq_of_sorted _ h3
    rcases hcase : mergeLoop minDur gap s e tl with _ | ⟨⟨cs, ce⟩, rest⟩
    · rfl
    · have hsorted2 : sortRanges ((cs, ce) :: rest) = (cs, ce) :: rest := by
        rw [← hcase]; exact hsorted
      rw [merge_cons_of_sort_cons hsorted2]
      rw [hcase] at h2 h4
      exact mergeLoop_fixed minDur gap rest cs ce h4 h2

/-- Claim C2, counterexample: with plan `[(10000, 20000)]`, pre-margin 2 s,
post-margin 1 s, cut mode, total 60000 ms, the builder emits passthrough
segments `[0, 8000)` and `[20000, 60000)` — not `[21000, 60000)` as the claim
states: the passthrough after the cut resumes at the range's original end. -/
theorem C2_counterexample :
    processChunkSegments [(10000, 20000)] "カット" 2 1 60000 5 (1/2) =
      [.passthrough 0 8000, .passthrough 20000 60000] ∧
    processChunkSegments [(10000, 20000)] "カット" 2 1 60000 5 (1/2) ≠
      [.passthrough 0 8000, .passthrough 21000 60000] := by
  constructor
  · norm_num [processChunkSegments, processRanges, addClip, addSpeedupClip]
    decide
  · norm_num [processChunkSegments, processRanges, addClip, addSpeedupClip]
    decide

/-- Claim C2, amended: in cut mode with plan `[(10000, 20000)]`, pre-margin
2 s and post-margin 1 s over a 60000 ms source, the builder emits exactly the
passthrough segments `[0, 8000)` and `[20000, 60000)`: the pre-margin is
subtracted from the range start, but the passthrough after the cut resumes at
the range's original end, so the post-margin does not extend the cut. -/
theorem C2_amended_cut_resumes_at_range_end :
    processChunkSegments [(10000, 20000)] "カット" 2 1 60000 5 (1/2) =
      [.passthrough 0 8000, .passthrough 20000 60000] := by
  norm_num [processChunkSegments, processRanges, addClip, addSpeedupClip]
  decide

/-- Claim C4, counterexample: in speed-up mode with post-margin 1 s over plan
`[(10000, 20000)]` and total 60000 ms, the emitted segments do NOT tile
`[0, 60000)`: the transform segment ends at 21000 but the next passthrough
resumes at 20000, so `[20000, 21000)` is covered twice and the durations sum
to 61000 ≠ 60000. -/
theorem C4_counterexample :
    sumDur (processChunkSegments [(10000, 20000)] "倍速" 0 1 60000 5 (1/2)) = 61000 ∧
    (61000 : ℚ) ≠ 60000 ∧
    ¬ tiles 0 60000 (processChunkSegments [(10000, 20000)] "倍速" 0 1 60000 5 (1/2)) := by
  refine ⟨?_, by norm_num, ?_⟩
  · norm_num [processChunkSegments, processRanges, addClip, addSpeedupClip, sumDur,
      Segment.startMs, Segment.endMs]
  · norm_num [processChunkSegments, processRanges, addClip, addSpeedupClip, tiles,
      Segment.startMs, Segment.endMs]

/-- Claim C4, amended: in speed-up mode with zero post-margin, for every plan
that is valid relative to the pre-margin (each margin-expanded start lies at
or after the previous range's end, margin-expanded ranges are non-degenerate,
and the plan ends within the total duration), the emitted segments exactly
tile `[0, total)`: consecutive boundaries coincide with no gap and no
overlap, and the segment durations sum to the total duration. In remove mode
the plan ranges are skipped by design, and a positive post-margin makes the
transform segment overlap the following passthrough, so neither tiles. -/
theorem C4_amended_speedup_zero_post_tiles (ranges : List TimeRange)
    (pre total factor volume : ℚ)
    (h : planTiles (pre * 1000) total 0 ranges) :
    tiles 0 total (processChunkSegments ranges "倍速" pre 0 total factor volume) ∧
    sumDur (processChunkSegments ranges "倍速" pre 0 total factor volume) = total := by
  have ht : tiles 0 total (processChunkSegments ranges "倍速" pre 0 total factor volume) := by
    unfold processChunkSegments
    rw [zero_mul]
    exact processRanges_tiles (pre * 1000) total factor volume ranges 0 h
  refine ⟨ht, ?_⟩
  rw [tiles_sumDur _ 0 total ht, sub_zero]

/-- Witness for the amended C4: one plan range with a 2 s pre-margin over a
60000 ms source tiles exactly. -/
theorem C4_amended_witness :
    tiles 0 60000 (processChunkSegments [(10000, 20000)] "倍速" 2 0 60000 5 (1/2)) ∧
    sumDur (processChunkSegments [(10000, 20000)] "倍速" 2 0 60000 5 (1/2)) = 60000 :=
  C4_amended_speedup_zero_post_tiles [(10000, 20000)] 2 60000 5 (1/2)
    (by norm_num [planTiles])

/-- Claim C7, counterexample: the atempo-chain decomposition of factor 250
with stage cap 100 produces `[100, 2.5]` (one division by the cap, then the
remainder), not `[100, 100, 25]` as the claim states. -/
theorem C7_counterexample :
    buildAtempoChain 250 = [100, 5/2] ∧ buildAtempoChain 250 ≠ [100, 100, 25] := by
  have h : buildAtempoChain 250 = [100, 5/2] := by
    rw [buildAtempoChain]; norm_num
    rw [buildAtempoChain]; norm_num
  refine ⟨h, ?_⟩
  rw [h]; norm_num

/-- Claim C7, amended: the atempo-chain decomposition of factor 250 with
stage cap 100 produces the stage list `[100, 2.5]`, and the product of the
emitted stage multipliers equals the requested factor 250. -/
theorem C7_amended_chain_100_2_5 :
    buildAtempoChain 250 = [100, 5/2] ∧ (buildAtempoChain 250).prod = 250 := by
  have h : buildAtempoChain 250 = [100, 5/2] := by
    rw [buildAtempoChain]; norm_num
    rw [buildAtempoChain]; norm_num
  refine ⟨h, ?_⟩
  rw [h]; norm_num

/-! ## Claims about the backend selector and fast-path error handling -/

/-- Claim C8: with the `2*N+1` stream estimate and the hard cap of 50
streams, the selector chooses the safe (MoviePy) path for 30 plan ranges
(estimate 61 > 50) and the fast (FFmpeg-direct) path for 10 plan ranges
(estimate 21 ≤ 50), whether or not audio is present, when the fast path is
enabled by configuration. -/
theorem C8_backend_selection :
    selectUseDirect true true 30 = false ∧ selectUseDirect true false 30 = false ∧
    selectUseDirect true true 10 = true ∧ selectUseDirect true false 10 = true ∧
    streamEstimate 30 true = 61 ∧ streamEstimate 30 false = 61 ∧
    streamEstimate 10 true = 21 ∧ streamEstimate 10 false = 21 := by
  decide

/-- Claim C3, counterexample: fast path selected, the `try` block does not
raise, but the video-pass subprocess exits non-zero: the job does NOT fall
back to the safe path (`ranSafePath = false`) and the failure is surfaced to
the user as an error dialog. -/
theorem C3_counterexample :
    (cutOrSpeedupVideo ⟨true, true, false, ⟨false, true, true⟩⟩
       [(10000, 20000)] "カット" 2 1 60000 5 (1/2)).ranSafePath = false ∧
    (cutOrSpeedupVideo ⟨true, true, false, ⟨false, true, true⟩⟩
       [(10000, 20000)] "カット" 2 1 60000 5 (1/2)).errorShown = true := by
  constructor <;>
    norm_num [cutOrSpeedupVideo, selectUseDirect, streamEstimate, MAX_CONCAT_STREAMS,
      processChunkRun, processChunkSegments, processRanges, addClip, addSpeedupClip]

/-- Claim C3, amended: on the fast path, the automatic downgrade to the safe
(MoviePy) path happens exactly when the fast-path block raises an exception;
a non-zero exit of any of the three external subprocess steps does NOT fall
back — `_process_chunk` returns `False`, the error is surfaced to the user,
no success is reported, and the safe path is not run. -/
theorem C3_amended_fallback_only_on_exception (env : RenderEnv)
    (ranges : List TimeRange) (mode : String)
    (preSec postSec durationMs factor volume : ℚ)
    (hsel : selectUseDirect env.useFfmpegDirect env.hasAudio ranges.length = true) :
    (env.fastRaises = true →
      (cutOrSpeedupVideo env ranges mode preSec postSec durationMs factor volume).ranSafePath
        = true) ∧
    (env.fastRaises = false →
      (cutOrSpeedupVideo env ranges mode preSec postSec durationMs factor volume).ranSafePath
          = false ∧
      ((processChunkRun
          (processChunkSegments ranges mode preSec postSec durationMs factor volume).length
          env.hasAudio env.steps).1 = false →
        (cutOrSpeedupVideo env ranges mode preSec postSec durationMs factor volume).errorShown
            = true ∧
        (cutOrSpeedupVideo env ranges mode preSec postSec durationMs factor volume).successShown
            = false)) := by
  refine ⟨fun hr => ?_, fun hr => ⟨?_, fun hfail => ⟨?_, ?_⟩⟩⟩ <;>
    simp_all [cutOrSpeedupVideo, processChunkRun_fail_error]

/-- Witness for the amended C3: mux step fails on a one-range plan; the safe
path does not run. -/
theorem C3_amended_witness :
    (cutOrSpeedupVideo ⟨true, false, false, ⟨true, true, false⟩⟩
       [(0, 1000)] "カット" 0 0 5000 5 1).ranSafePath = false := by
  have h := C3_amended_fallback_only_on_exception ⟨true, false, false, ⟨true, true, false⟩⟩
    [(0, 1000)] "カット" 0 0 5000 5 1 (by decide)
  exact (h.2 rfl).1

/-! ## Claim about the frame-rate fallbacks -/

/-- Claim C10: when the reported frame rate is zero, negative, or unavailable
(`None`), both the static-region detector and the fast-path builder
substitute the fallback 30 fps, which is positive, so the frame-to-ms
conversion never divides by zero. -/
theorem C10_fps_fallback (f : ℚ) (hf : f ≤ 0) :
    staticDetectorFps f = 30 ∧ processChunkFps (some f) = 30 ∧
    processChunkFps none = 30 ∧ 0 < staticDetectorFps f ∧
    0 < processChunkFps (some f) := by
  have h : ¬ 0 < f := not_lt.mpr hf
  norm_num [staticDetectorFps, processChunkFps, h]

/-- Witness for C10 at reported frame rate 0. -/
theorem C10_witness :
    staticDetectorFps 0 = 30 ∧ processChunkFps (some 0) = 30 ∧
    processChunkFps none = 30 ∧ 0 < staticDetectorFps 0 ∧
    0 < processChunkFps (some 0) :=
  C10_fps_fallback 0 (by norm_num)

end MovieAutoCutter
